import Mathlib

/-!
Verification of the arithmetic core of this repository: the Comba
column multiplier (src/s_mp_mul_comba.c), the Toom-Cook 3-way squarer
(src/bn_s_mp_toom_sqr.c) and the Jacobi symbol wrapper
(src/bn_mp_jacobi.c).

A multi-precision integer is a sign flag plus a little-endian list of
digits in radix R = 2 ^ MP_DIGIT_BIT.  Collaborator operations that are
not part of this repository slice (addition, subtraction, shifts, small
multiplies and divides, squaring dispatch, comparison) are modelled from
their contracts at the level of integer values, as the specification
describes them.
-/

namespace LTM

/-- Result codes of the library (subset used by the three routines). -/
inductive mp_err where
  | MP_OKAY : mp_err
  | MP_MEM : mp_err
  | MP_VAL : mp_err
deriving DecidableEq

export mp_err (MP_OKAY MP_MEM MP_VAL)

/-- A multi-precision integer: sign flag (true = negative) plus the
little-endian list of significant digits.  The list models exactly the
digits below the `used` count of the C structure; `used` is the list
length. -/
structure mp_int where
  sign : Bool
  dp : List ℕ
deriving DecidableEq

/-- The `used` count of the C structure. -/
def mp_int.used (x : mp_int) : ℕ := x.dp.length

/-- Magnitude of a digit vector in radix 2 ^ W. -/
def mag (W : ℕ) (x : mp_int) : ℕ := Nat.ofDigits (2 ^ W) x.dp

/-- Signed value of a multi-precision integer. -/
def val (W : ℕ) (x : mp_int) : ℤ := if x.sign then -(mag W x : ℤ) else (mag W x : ℤ)

/-- Canonical form (spec section 3): every digit is below the radix, the
most significant digit is nonzero, and the value zero carries the
positive sign. -/
def mp_canonical (W : ℕ) (x : mp_int) : Prop :=
  (∀ d ∈ x.dp, d < 2 ^ W) ∧ x.dp.getLastD 1 ≠ 0 ∧ (x.dp = [] → x.sign = false)

instance (W : ℕ) (x : mp_int) : Decidable (mp_canonical W x) := by
  unfold mp_canonical; infer_instance

/-- Fuel-indexed little-endian digit expansion in base R, written with
a bare recursor so that concrete instances evaluate inside the
kernel. -/
def natDigitsF (R fuel : ℕ) : ℕ → List ℕ :=
  Nat.rec (motive := fun _ => ℕ → List ℕ)
    (fun _ => [])
    (fun _ ih n => if n = 0 then [] else n % R :: ih (n / R))
    fuel

/-- Little-endian base-R digits of n, without leading zeros. -/
def natDigits (R n : ℕ) : List ℕ := natDigitsF R n n

/-- Canonicalize an integer value into a multi-precision integer, as the
allocation and clamping collaborators produce them. -/
def ofInt (W : ℕ) (v : ℤ) : mp_int := ⟨decide (v < 0), natDigits (2 ^ W) v.natAbs⟩

/-! ### mp_clamp: strip leading (most significant) zero digits -/

/-- mp_clamp on the digit list: drop zero digits from the most
significant end (the tail of the little-endian list). -/
def clampD : List ℕ → List ℕ
  | [] => []
  | d :: ds =>
    match clampD ds with
    | [] => if d = 0 then [] else [d]
    | e :: r => d :: e :: r

/-! ### s_mp_mul_comba (src/s_mp_mul_comba.c)

The digit accumulator: c0 holds the column digit, c1 and c2 absorb the
carries.  One inner-loop iteration (lines 60-98 of the source; the body
unrolled four times at lines 60-88 is identical to the body at lines
91-98) adds one digit product into the accumulator triple, masking with
MP_MASK = R - 1 and shifting by MP_DIGIT_BIT exactly as the source does
with mp_word arithmetic. -/

/-- One iteration of the Comba inner loop (lines 91-98):
w = c0 + a[tx+iz]*b[ty-iz]; c0 = w and MASK; w = c1 + (w shifted down);
c1 = w and MASK; c2 += w shifted down. -/
def combaStep (R ai bi : ℕ) (acc : ℕ × ℕ × ℕ) : ℕ × ℕ × ℕ :=
  let w := acc.1 + ai * bi
  let w2 := acc.2.1 + w / R
  (w % R, w2 % R, acc.2.2 + w2 / R)

/-- Combined value of the three-digit accumulator. -/
def v3 (R : ℕ) (acc : ℕ × ℕ × ℕ) : ℕ := acc.1 + R * acc.2.1 + R * R * acc.2.2

/-- Number-of-iterations-indexed inner loop of the Comba multiplier
(lines 60-98): iterates combaStep over the digit pairs
(tx, ty), (tx+1, ty-1), ... -/
def combaInner (R : ℕ) (adp bdp : List ℕ) : ℕ → ℕ → ℕ → (ℕ × ℕ × ℕ) → ℕ × ℕ × ℕ
  | _, _, 0, acc => acc
  | tx, ty, n + 1, acc =>
    combaInner R adp bdp (tx + 1) (ty - 1) n
      (combaStep R (adp.getD tx 0) (bdp.getD ty 0) acc)

/-- Sum of the digit products visited by the inner loop. -/
def innerSum (adp bdp : List ℕ) : ℕ → ℕ → ℕ → ℕ
  | _, _, 0 => 0
  | tx, ty, n + 1 => adp.getD tx 0 * bdp.getD ty 0 + innerSum adp bdp (tx + 1) (ty - 1) n

/-- One column of the outer loop: the index setup of lines 46-52
(ty = MIN(b.used-1, ix), tx = ix - ty, iy = MIN(a.used - tx, ty + 1),
computed over ℤ as the C int arithmetic does) followed by the inner
loop; a non-positive iy runs zero iterations. -/
def combaAcc (R : ℕ) (adp bdp : List ℕ) (ix : ℕ) (acc : ℕ × ℕ × ℕ) : ℕ × ℕ × ℕ :=
  combaInner R adp bdp
    ((ix : ℤ) - min ((bdp.length : ℤ) - 1) (ix : ℤ)).toNat
    (min ((bdp.length : ℤ) - 1) (ix : ℤ)).toNat
    (min ((adp.length : ℤ) - ((ix : ℤ) - min ((bdp.length : ℤ) - 1) (ix : ℤ)))
      (min ((bdp.length : ℤ) - 1) (ix : ℤ) + 1)).toNat acc

def combaLoop (R : ℕ) (adp bdp : List ℕ) : ℕ → ℕ → (ℕ × ℕ × ℕ) → List ℕ
  | _, 0, _ => []
  | ix, n + 1, acc =>
    let acc1 := combaAcc R adp bdp ix acc
    acc1.1 :: combaLoop R adp bdp (ix + 1) n (acc1.2.1, acc1.2.2, 0)

/-- Column ix of the digit convolution of two digit lists. -/
def convCol (adp bdp : List ℕ) (ix : ℕ) : ℕ :=
  ∑ j ∈ Finset.range (ix + 1), adp.getD j 0 * bdp.getD (ix - j) 0

/-- s_mp_mul_comba (lines 22-124).  The routine is magnitude only; the
destination preparation (lines 29-35) computes into a fresh private
integer when the destination aliases an operand, else grows the
destination in place (its sign flag surviving), and the result is
clamped (line 116), which also normalizes the sign of a zero result.
On the aliased path the temporary is moved into the destination
(lines 118-121). -/
def s_mp_mul_comba (W : ℕ) (a b c : mp_int) (digs : ℕ) (aliased : Bool) : mp_int :=
  let dest : mp_int := if aliased then ⟨false, []⟩ else c
  let pa := min digs (a.used + b.used)
  let ds := combaLoop (2 ^ W) a.dp b.dp 0 pa (0, 0, 0)
  let cl := clampD ds
  ⟨if cl = [] then false else dest.sign, cl⟩

/-! ### Reference schoolbook multiplication

Modelled from the spec: an independent, simple shift-and-add schoolbook
multiplication of two digit lists, used as the comparison reference for
the testable properties of section 8. -/

/-- Propagate a carry through one digit list. -/
def addCarry (R : ℕ) : List ℕ → ℕ → List ℕ
  | [], cy => natDigits R cy
  | y :: ys, cy => (y + cy) % R :: addCarry R ys ((y + cy) / R)

/-- Ripple-carry addition of two digit lists with carry-in. -/
def addD (R : ℕ) : List ℕ → List ℕ → ℕ → List ℕ
  | [], ys, cy => addCarry R ys cy
  | x :: xs, [], cy => addCarry R (x :: xs) cy
  | x :: xs, y :: ys, cy => (x + y + cy) % R :: addD R xs ys ((x + y + cy) / R)

/-- Multiply a digit list by a single digit with carry. -/
def scaleD (R d : ℕ) : List ℕ → ℕ → List ℕ
  | [], cy => natDigits R cy
  | y :: ys, cy => (d * y + cy) % R :: scaleD R d ys ((d * y + cy) / R)

/-- Schoolbook product: one scaled row per digit of the first operand,
accumulated with a one-digit shift. -/
def mulSchool (R : ℕ) : List ℕ → List ℕ → List ℕ
  | [], _ => []
  | x :: xs, ys => addD R (scaleD R x ys 0) (0 :: mulSchool R xs ys) 0

/-! ### s_mp_toom_sqr (src/bn_s_mp_toom_sqr.c)

The squarer only calls external collaborator operations (mp_mod_2d,
mp_rshd, mp_copy, mp_sqr, mp_mul_2, mp_add, mp_sub, mp_div_2, mp_mul_2d,
mp_mul_d, mp_div_3, mp_lshd); these are modelled from their contracts at
the level of signed values.  All of them act on the magnitude and carry
the sign along, which only matters for the two truncating divisions. -/

/-- Apply a magnitude operation, keeping the sign of the operand. -/
def magApply (f : ℕ → ℕ) (v : ℤ) : ℤ :=
  if v < 0 then -(f v.natAbs : ℤ) else (f v.natAbs : ℤ)

/-- Modelled from the spec: mp_mod_2d, truncation keeping the low
`bits` bits of the magnitude. -/
def mp_mod_2d_v (v : ℤ) (bits : ℕ) : ℤ := magApply (fun n => n % 2 ^ bits) v

/-- Modelled from the spec: mp_rshd, right shift of the magnitude by k
digit positions (divide by R^k). -/
def mp_rshd_v (W : ℕ) (v : ℤ) (k : ℕ) : ℤ := magApply (fun n => n / 2 ^ (W * k)) v

/-- Modelled from the spec: mp_div_2, halving the magnitude. -/
def mp_div_2_v (v : ℤ) : ℤ := magApply (fun n => n / 2) v

/-- Modelled from the spec: mp_div_3 (quotient part), dividing the
magnitude by three. -/
def mp_div_3_v (v : ℤ) : ℤ := magApply (fun n => n / 3) v

/-- The five evaluation values w0..w4 of the squarer. -/
structure W5 where
  w0 : ℤ
  w1 : ℤ
  w2 : ℤ
  w3 : ℤ
  w4 : ℤ
deriving DecidableEq

/-- Limb split of lines 18-37: B = used/3; a0 = a mod 2^(DIGIT_BIT*B);
a1 = (a >> B digits) mod 2^(DIGIT_BIT*B); a2 = a >> 2B digits. -/
def toomSplit (W : ℕ) (a : mp_int) : ℤ × ℤ × ℤ :=
  let B := a.used / 3
  (mp_mod_2d_v (val W a) (W * B),
   mp_mod_2d_v (mp_rshd_v W (val W a) B) (W * B),
   mp_rshd_v W (val W a) (B * 2))

/-- Evaluation phase, lines 39-95: w0 = a0²; w4 = a2²;
w1 = (2(2a0 + a1) + a2)²; w3 = (2(2a2 + a1) + a0)²; w2 = (a2+a1+a0)².
The additions and doublings are exact signed collaborator operations. -/
def toomEval (a0 a1 a2 : ℤ) : W5 :=
  ⟨a0 ^ 2,
   (2 * (2 * a0 + a1) + a2) ^ 2,
   ((a2 + a1) + a0) ^ 2,
   (2 * (2 * a2 + a1) + a0) ^ 2,
   a2 ^ 2⟩

/-- Interpolation, first two subtractions (lines 108-114):
w1 = w1 - w4 and w3 = w3 - w0.  The results are the operands of the two
divisions by two. -/
def toomSub1 (w : W5) : W5 := ⟨w.w0, w.w1 - w.w4, w.w2, w.w3 - w.w0, w.w4⟩

/-- Interpolation, lines 116-169: the two halvings, then the chain of
subtractions and the one small multiplication, stopping just before the
divisions by three; the w1 and w3 fields of the result are the operands
of the divisions by three (lines 172-177). -/
def toomMid (w : W5) : W5 :=
  let w1a := mp_div_2_v w.w1
  let w3a := mp_div_2_v w.w3
  let w2a := w.w2 - w.w0 - w.w4
  let w1b := w1a - w2a
  let w3b := w3a - w2a
  let w1c := w1b - w.w0 * 2 ^ 3
  let w3c := w3b - w.w4 * 2 ^ 3
  let w2b := 3 * w2a - w1c - w3c
  ⟨w.w0, w1c - w2b, w2b, w3c - w2b, w.w4⟩

/-- Interpolation, lines 171-178: the two exact divisions by three. -/
def toomDiv3 (w : W5) : W5 := ⟨w.w0, mp_div_3_v w.w1, w.w2, mp_div_3_v w.w3, w.w4⟩

/-- Recombination shifts, lines 180-192: w_k is shifted left by k·B
digit positions. -/
def toomShift (W B : ℕ) (w : W5) : W5 :=
  ⟨w.w0,
   w.w1 * 2 ^ (W * (1 * B)),
   w.w2 * 2 ^ (W * (2 * B)),
   w.w3 * 2 ^ (W * (3 * B)),
   w.w4 * 2 ^ (W * (4 * B))⟩

/-- The five shifted coefficient values the recombination adds up. -/
def toomW (W : ℕ) (a : mp_int) : W5 :=
  let s := toomSplit W a
  toomShift W (a.used / 3) (toomDiv3 (toomMid (toomSub1 (toomEval s.1 s.2.1 s.2.2))))

/-- s_mp_toom_sqr with failure injection.  Every fallible collaborator
call of the source is numbered in program order (op 0 is mp_init_multi
at line 14, op 46 the final mp_add at line 203); `failAt = some k` makes
op k report an out-of-memory failure, upon which the routine releases
its temporaries and returns the error with the destination in its state
at that point.  The destination b is first written by op 43 (line 194)
and finally by op 46 (line 203); every op leaves its own destination
untouched when it fails. -/
def s_mp_toom_sqr_run (W : ℕ) (failAt : Option ℕ) (a b0 : mp_int) : mp_err × mp_int :=
  if failAt = some 0 then (MP_MEM, b0) else   -- mp_init_multi, line 14
  if failAt = some 1 then (MP_MEM, b0) else   -- mp_mod_2d a0, line 22
  if failAt = some 2 then (MP_MEM, b0) else   -- mp_copy a1, line 26
  if failAt = some 3 then (MP_MEM, b0) else   -- mp_mod_2d a1, line 30
  if failAt = some 4 then (MP_MEM, b0) else   -- mp_copy a2, line 34
  if failAt = some 5 then (MP_MEM, b0) else   -- mp_sqr w0, line 40
  if failAt = some 6 then (MP_MEM, b0) else   -- mp_sqr w4, line 45
  if failAt = some 7 then (MP_MEM, b0) else   -- mp_mul_2, line 50
  if failAt = some 8 then (MP_MEM, b0) else   -- mp_add, line 53
  if failAt = some 9 then (MP_MEM, b0) else   -- mp_mul_2, line 56
  if failAt = some 10 then (MP_MEM, b0) else  -- mp_add, line 59
  if failAt = some 11 then (MP_MEM, b0) else  -- mp_sqr w1, line 63
  if failAt = some 12 then (MP_MEM, b0) else  -- mp_mul_2, line 68
  if failAt = some 13 then (MP_MEM, b0) else  -- mp_add, line 71
  if failAt = some 14 then (MP_MEM, b0) else  -- mp_mul_2, line 74
  if failAt = some 15 then (MP_MEM, b0) else  -- mp_add, line 77
  if failAt = some 16 then (MP_MEM, b0) else  -- mp_sqr w3, line 81
  if failAt = some 17 then (MP_MEM, b0) else  -- mp_add, line 87
  if failAt = some 18 then (MP_MEM, b0) else  -- mp_add, line 90
  if failAt = some 19 then (MP_MEM, b0) else  -- mp_sqr w2, line 93
  if failAt = some 20 then (MP_MEM, b0) else  -- mp_sub, line 109
  if failAt = some 21 then (MP_MEM, b0) else  -- mp_sub, line 113
  if failAt = some 22 then (MP_MEM, b0) else  -- mp_div_2, line 117
  if failAt = some 23 then (MP_MEM, b0) else  -- mp_div_2, line 121
  if failAt = some 24 then (MP_MEM, b0) else  -- mp_sub, line 125
  if failAt = some 25 then (MP_MEM, b0) else  -- mp_sub, line 128
  if failAt = some 26 then (MP_MEM, b0) else  -- mp_sub, line 132
  if failAt = some 27 then (MP_MEM, b0) else  -- mp_sub, line 136
  if failAt = some 28 then (MP_MEM, b0) else  -- mp_mul_2d, line 140
  if failAt = some 29 then (MP_MEM, b0) else  -- mp_sub, line 143
  if failAt = some 30 then (MP_MEM, b0) else  -- mp_mul_2d, line 147
  if failAt = some 31 then (MP_MEM, b0) else  -- mp_sub, line 150
  if failAt = some 32 then (MP_MEM, b0) else  -- mp_mul_d, line 154
  if failAt = some 33 then (MP_MEM, b0) else  -- mp_sub, line 157
  if failAt = some 34 then (MP_MEM, b0) else  -- mp_sub, line 160
  if failAt = some 35 then (MP_MEM, b0) else  -- mp_sub, line 164
  if failAt = some 36 then (MP_MEM, b0) else  -- mp_sub, line 168
  if failAt = some 37 then (MP_MEM, b0) else  -- mp_div_3, line 172
  if failAt = some 38 then (MP_MEM, b0) else  -- mp_div_3, line 176
  if failAt = some 39 then (MP_MEM, b0) else  -- mp_lshd, line 181
  if failAt = some 40 then (MP_MEM, b0) else  -- mp_lshd, line 184
  if failAt = some 41 then (MP_MEM, b0) else  -- mp_lshd, line 187
  if failAt = some 42 then (MP_MEM, b0) else  -- mp_lshd, line 190
  let w := toomW W a
  if failAt = some 43 then (MP_MEM, b0) else  -- mp_add(w0, w1, b), line 194
  let b1 := ofInt W (w.w0 + w.w1)
  if failAt = some 44 then (MP_MEM, b1) else  -- mp_add(w2, w3, tmp1), line 197
  if failAt = some 45 then (MP_MEM, b1) else  -- mp_add(w4, tmp1, tmp1), line 200
  if failAt = some 46 then (MP_MEM, b1) else  -- mp_add(tmp1, b, b), line 203
  (MP_OKAY, ofInt W ((w.w4 + (w.w2 + w.w3)) + val W b1))

/-! ### The call boundary of s_mp_mul_comba -/

/-- The call as seen by the caller: the destination preparation
(lines 29-35, mp_init_size or mp_grow) is the only fallible step; on its
failure the routine returns at line 34 with all three integers
untouched, otherwise it succeeds, writing only the destination.  The
operands are declared const and never stored to. -/
def s_mp_mul_comba_call (W : ℕ) (a b c : mp_int) (digs : ℕ) (aliased allocOk : Bool) :
    mp_err × mp_int × mp_int × mp_int :=
  if allocOk then (MP_OKAY, a, b, s_mp_mul_comba W a b c digs aliased)
  else (MP_MEM, a, b, c)

/-! ### mp_jacobi (src/bn_mp_jacobi.c) -/

/-- mp_isneg: the sign flag test of the header macro. -/
def mp_isneg (x : mp_int) : Bool := x.sign

/-- Modelled from the spec: the comparison collaborator mp_cmp_d
compares a multi-precision integer with a single digit by signed
value. -/
def mp_cmp_d (W : ℕ) (n : mp_int) (d : ℕ) : Ordering := compare (val W n) (d : ℤ)

/-- mp_jacobi (lines 19-32): reject a negative numerator, reject a
non-positive modulus, otherwise delegate to the external
Kronecker-symbol evaluator with unmodified operands.  The evaluator is
an arbitrary function; on the rejecting paths the result location c is
left untouched. -/
def mp_jacobi (W : ℕ) (kron : mp_int → mp_int → mp_err × ℤ) (a n : mp_int) (c : ℤ) :
    mp_err × ℤ :=
  if mp_isneg a = true then (MP_VAL, c)
  else if mp_cmp_d W n 0 ≠ Ordering.gt then (MP_VAL, c)
  else kron a n

theorem natDigitsF_zero (R n : ℕ) : natDigitsF R 0 n = [] := rfl

theorem natDigitsF_succ (R f n : ℕ) :
    natDigitsF R (f + 1) n = if n = 0 then [] else n % R :: natDigitsF R f (n / R) := rfl

theorem natDigitsF_sound (R : ℕ) (hR : 2 ≤ R) :
    ∀ fuel n, n ≤ fuel →
      Nat.ofDigits R (natDigitsF R fuel n) = n ∧
      (∀ d ∈ natDigitsF R fuel n, d < R) ∧
      (natDigitsF R fuel n).getLastD 1 ≠ 0 ∧
      (natDigitsF R fuel n = [] → n = 0) := by
  intro fuel
  induction fuel with
  | zero =>
    intro n hn
    interval_cases n
    simp [natDigitsF_zero, Nat.ofDigits]
  | succ f ih =>
    intro n hn
    by_cases h0 : n = 0
    · subst h0; simp [natDigitsF_succ, Nat.ofDigits]
    · have hdiv : n / R ≤ f := by
        have h1 : n / R < n := Nat.div_lt_self (Nat.pos_of_ne_zero h0) (by omega)
        omega
      obtain ⟨hv, hb, hl, hz⟩ := ih (n / R) hdiv
      have hcons : natDigitsF R (f + 1) n = n % R :: natDigitsF R f (n / R) := by
        rw [natDigitsF_succ, if_neg h0]
      refine ⟨?_, ?_, ?_, ?_⟩
      · rw [hcons, Nat.ofDigits_cons, hv, Nat.mod_add_div]
      · intro d hd
        rw [hcons] at hd
        rcases List.mem_cons.mp hd with h | h
        · subst h; exact Nat.mod_lt _ (by omega)
        · exact hb d h
      · rw [hcons]
        cases hrec : natDigitsF R f (n / R) with
        | nil =>
          have hd0 : n / R = 0 := hz hrec
          have hlt : n < R := (Nat.div_eq_zero_iff (by omega)).mp hd0
          simp [List.getLastD, Nat.mod_eq_of_lt hlt, h0]
        | cons d ds =>
          rw [hrec] at hl
          simpa [List.getLastD] using hl
      · intro h; rw [hcons] at h; exact absurd h (List.cons_ne_nil _ _)

theorem natDigits_ofDigits (R n : ℕ) (hR : 2 ≤ R) :
    Nat.ofDigits R (natDigits R n) = n :=
  (natDigitsF_sound R hR n n le_rfl).1

theorem natDigits_lt (R n : ℕ) (hR : 2 ≤ R) : ∀ d ∈ natDigits R n, d < R :=
  (natDigitsF_sound R hR n n le_rfl).2.1

theorem natDigits_getLastD (R n : ℕ) (hR : 2 ≤ R) : (natDigits R n).getLastD 1 ≠ 0 :=
  (natDigitsF_sound R hR n n le_rfl).2.2.1

theorem natDigits_eq_nil (R n : ℕ) (hR : 2 ≤ R) (h : natDigits R n = []) : n = 0 :=
  (natDigitsF_sound R hR n n le_rfl).2.2.2 h

theorem two_le_radix {W : ℕ} (hW : 1 ≤ W) : 2 ≤ 2 ^ W :=
  le_trans (by norm_num) (Nat.pow_le_pow_right (by norm_num) hW)

theorem mag_ofInt (W : ℕ) (hW : 1 ≤ W) (v : ℤ) : mag W (ofInt W v) = v.natAbs := by
  simp [mag, ofInt, natDigits_ofDigits _ _ (two_le_radix hW)]

theorem val_ofInt (W : ℕ) (hW : 1 ≤ W) (v : ℤ) : val W (ofInt W v) = v := by
  have hm : (mag W (ofInt W v) : ℤ) = (v.natAbs : ℤ) := by exact_mod_cast mag_ofInt W hW v
  rcases lt_or_ge v 0 with h | h
  · have hs : (ofInt W v).sign = true := by simp [ofInt, h]
    rw [val, hs, if_pos rfl, hm]; omega
  · have hs : (ofInt W v).sign = false := by simp [ofInt, not_lt.mpr h]
    rw [val, hs]; simp only [Bool.false_eq_true, if_false]; rw [hm]; omega

theorem canonical_ofInt (W : ℕ) (hW : 1 ≤ W) (v : ℤ) : mp_canonical W (ofInt W v) := by
  have hR := two_le_radix hW
  refine ⟨natDigits_lt _ _ hR, natDigits_getLastD _ _ hR, ?_⟩
  intro h
  have h0 : v.natAbs = 0 := natDigits_eq_nil _ _ hR h
  have : v = 0 := Int.natAbs_eq_zero.mp h0
  simp [ofInt, this]

theorem getLastD_indep {α : Type} (l : List α) (hl : l ≠ []) (a b : α) :
    l.getLastD a = l.getLastD b := by
  cases l with
  | nil => exact absurd rfl hl
  | cons x xs => rw [List.getLastD_cons, List.getLastD_cons]

theorem ofDigits_pos (R : ℕ) (hR : 1 ≤ R) :
    ∀ l : List ℕ, l.getLastD 1 ≠ 0 → l ≠ [] → 0 < Nat.ofDigits R l := by
  intro l
  induction l with
  | nil => intro _ h; exact absurd rfl h
  | cons d ds ih =>
    intro hlast _
    rw [Nat.ofDigits_cons]
    cases hds : ds with
    | nil =>
      subst hds
      simp only [List.getLastD_cons, List.getLastD_nil] at hlast
      simp [Nat.ofDigits]
      omega
    | cons e es =>
      subst hds
      have hpos : 0 < Nat.ofDigits R (e :: es) := by
        apply ih
        · simp only [List.getLastD_cons] at hlast ⊢
          exact hlast
        · exact List.cons_ne_nil _ _
      have := Nat.mul_le_mul hR hpos
      omega

theorem zero_lt_mag (W : ℕ) (hW : 1 ≤ W) (x : mp_int) (hx : mp_canonical W x)
    (hne : x.dp ≠ []) : 0 < mag W x :=
  ofDigits_pos (2 ^ W) Nat.one_le_two_pow x.dp hx.2.1 hne

/-- For a canonical integer the sign flag agrees with the sign of the value. -/
theorem canonical_sign_iff (W : ℕ) (hW : 1 ≤ W) (x : mp_int) (hx : mp_canonical W x) :
    x.sign = true ↔ val W x < 0 := by
  constructor
  · intro hs
    have hne : x.dp ≠ [] := fun h => by simp [hx.2.2 h] at hs
    have := zero_lt_mag W hW x hx hne
    simp [val, hs]
    omega
  · intro hv
    by_contra hs
    simp at hs
    simp [val, hs] at hv
    omega

theorem clampD_ofDigits (R : ℕ) : ∀ l, Nat.ofDigits R (clampD l) = Nat.ofDigits R l := by
  intro l
  induction l with
  | nil => rfl
  | cons d ds ih =>
    rw [clampD]
    cases h : clampD ds with
    | nil =>
      have hds : Nat.ofDigits R ds = 0 := by rw [← ih, h]; rfl
      by_cases hd : d = 0 <;>
        simp [hd, Nat.ofDigits_cons, Nat.ofDigits_nil, hds]
    | cons e r =>
      rw [h] at ih
      calc Nat.ofDigits R (d :: e :: r)
          = d + R * Nat.ofDigits R (e :: r) := Nat.ofDigits_cons
        _ = d + R * Nat.ofDigits R ds := by rw [ih]
        _ = Nat.ofDigits R (d :: ds) := Nat.ofDigits_cons.symm

theorem clampD_getLastD : ∀ l : List ℕ, (clampD l).getLastD 1 ≠ 0 := by
  intro l
  induction l with
  | nil => simp [clampD, List.getLastD_nil]
  | cons d ds ih =>
    rw [clampD]
    cases h : clampD ds with
    | nil =>
      by_cases hd : d = 0 <;> simp [hd, List.getLastD_nil, List.getLastD_cons]
    | cons e r =>
      rw [h] at ih
      show (d :: e :: r).getLastD 1 ≠ 0
      rw [List.getLastD_cons, getLastD_indep (e :: r) (List.cons_ne_nil _ _) d 1]
      exact ih

theorem clampD_subset : ∀ l : List ℕ, ∀ d ∈ clampD l, d ∈ l := by
  intro l
  induction l with
  | nil => intro d hd; simpa [clampD] using hd
  | cons d ds ih =>
    intro x hx
    rw [clampD] at hx
    cases h : clampD ds with
    | nil =>
      rw [h] at hx
      by_cases hd : d = 0 <;> simp [hd] at hx
      simp [hx]
    | cons e r =>
      rw [h] at hx
      rcases List.mem_cons.mp hx with h1 | h1
      · simp [h1]
      · exact List.mem_cons_of_mem _ (ih x (h ▸ h1))

theorem combaStep_v3 (R ai bi : ℕ) (acc : ℕ × ℕ × ℕ) :
    v3 R (combaStep R ai bi acc) = v3 R acc + ai * bi := by
  obtain ⟨c0, c1, c2⟩ := acc
  show (c0 + ai * bi) % R + R * ((c1 + (c0 + ai * bi) / R) % R) +
      R * R * (c2 + (c1 + (c0 + ai * bi) / R) / R) = (c0 + R * c1 + R * R * c2) + ai * bi
  set w := c0 + ai * bi with hw
  set w2 := c1 + w / R with hw2
  have h1 := Nat.mod_add_div w R
  have h2 := Nat.mod_add_div w2 R
  calc w % R + R * (w2 % R) + R * R * (c2 + w2 / R)
      = w % R + R * (w2 % R + R * (w2 / R)) + R * R * c2 := by ring
    _ = w % R + R * w2 + R * R * c2 := by rw [h2]
    _ = (w % R + R * (w / R)) + R * c1 + R * R * c2 := by rw [hw2]; ring
    _ = w + R * c1 + R * R * c2 := by rw [h1]
    _ = (c0 + R * c1 + R * R * c2) + ai * bi := by rw [hw]; ring

theorem combaStep_lt (R ai bi : ℕ) (hR : 0 < R) (acc : ℕ × ℕ × ℕ) :
    (combaStep R ai bi acc).1 < R ∧ (combaStep R ai bi acc).2.1 < R :=
  ⟨Nat.mod_lt _ hR, Nat.mod_lt _ hR⟩

theorem combaInner_v3 (R : ℕ) (a b : List ℕ) :
    ∀ n tx ty acc, v3 R (combaInner R a b tx ty n acc) = v3 R acc + innerSum a b tx ty n := by
  intro n
  induction n with
  | zero => intro tx ty acc; simp [combaInner, innerSum]
  | succ m ih =>
    intro tx ty acc
    rw [combaInner, innerSum, ih, combaStep_v3]
    ring

theorem combaInner_lt (R : ℕ) (hR : 0 < R) (a b : List ℕ) :
    ∀ n tx ty acc,
      (combaInner R a b tx ty (n + 1) acc).1 < R ∧
      (combaInner R a b tx ty (n + 1) acc).2.1 < R := by
  intro n
  induction n with
  | zero => intro tx ty acc; exact combaStep_lt R _ _ hR acc
  | succ m ih => intro tx ty acc; exact ih (tx + 1) (ty - 1) _

theorem combaLoop_succ (R : ℕ) (adp bdp : List ℕ) (ix n : ℕ) (acc : ℕ × ℕ × ℕ) :
    combaLoop R adp bdp ix (n + 1) acc =
      (combaAcc R adp bdp ix acc).1 ::
        combaLoop R adp bdp (ix + 1) n
          ((combaAcc R adp bdp ix acc).2.1, (combaAcc R adp bdp ix acc).2.2, 0) := rfl

theorem innerSum_eq_sum (a b : List ℕ) :
    ∀ n tx ty, innerSum a b tx ty n =
      ∑ iz ∈ Finset.range n, a.getD (tx + iz) 0 * b.getD (ty - iz) 0 := by
  intro n
  induction n with
  | zero => intro tx ty; simp [innerSum]
  | succ m ih =>
    intro tx ty
    rw [innerSum, ih, Finset.sum_range_succ']
    have h1 : ∑ i ∈ Finset.range m, a.getD (tx + (i + 1)) 0 * b.getD (ty - (i + 1)) 0 =
        ∑ i ∈ Finset.range m, a.getD (tx + 1 + i) 0 * b.getD (ty - 1 - i) 0 := by
      apply Finset.sum_congr rfl
      intro i _
      rw [show tx + 1 + i = tx + (i + 1) from by omega,
        show ty - 1 - i = ty - (i + 1) from by omega]
    rw [h1, Nat.add_zero, Nat.sub_zero]
    exact add_comm _ _

/-- The index arithmetic of lines 46-52 enumerates exactly the digit
pairs of convolution column ix. -/
theorem innerSum_conv (a b : List ℕ) (ix : ℕ) (tyI txI iyI : ℤ)
    (hty : tyI = min ((b.length : ℤ) - 1) (ix : ℤ))
    (htx : txI = (ix : ℤ) - tyI)
    (hiy : iyI = min ((a.length : ℤ) - txI) (tyI + 1)) :
    innerSum a b txI.toNat tyI.toNat iyI.toNat = convCol a b ix := by
  rcases Nat.eq_zero_or_pos b.length with hlb | hlb
  · have hb : b = [] := List.length_eq_zero.mp hlb
    subst hb
    have hiy0 : iyI.toNat = 0 := by
      simp only [List.length_nil] at hty hiy
      omega
    rw [hiy0]
    show (0 : ℕ) = convCol a [] ix
    simp [convCol]
  · have h2 : tyI.toNat = min (b.length - 1) ix := by omega
    have h1 : txI.toNat = ix - min (b.length - 1) ix := by omega
    set tyN := min (b.length - 1) ix with htyN
    set txN := ix - tyN with htxN
    have h3 : iyI.toNat = min (a.length - txN) (tyN + 1) := by omega
    set iyN := min (a.length - txN) (tyN + 1) with hiyN
    have htt : txN + tyN = ix := by omega
    have hiy1 : iyN ≤ tyN + 1 := by omega
    rw [h1, h2, h3, innerSum_eq_sum]
    have hpt : ∀ iz ∈ Finset.range iyN,
        a.getD (txN + iz) 0 * b.getD (tyN - iz) 0 =
        a.getD (txN + iz) 0 * b.getD (ix - (txN + iz)) 0 := by
      intro iz hiz
      rw [Finset.mem_range] at hiz
      rw [show tyN - iz = ix - (txN + iz) from by omega]
    rw [Finset.sum_congr rfl hpt]
    have hico : ∑ j ∈ Finset.Ico txN (txN + iyN), a.getD j 0 * b.getD (ix - j) 0 =
        ∑ iz ∈ Finset.range iyN, a.getD (txN + iz) 0 * b.getD (ix - (txN + iz)) 0 := by
      rw [Finset.sum_Ico_eq_sum_range, Nat.add_sub_cancel_left]
    rw [← hico, convCol]
    apply Finset.sum_subset
    · intro j hj
      rw [Finset.mem_Ico] at hj
      rw [Finset.mem_range]
      omega
    · intro j hjr hjn
      rw [Finset.mem_range] at hjr
      rw [Finset.mem_Ico] at hjn
      rcases Nat.lt_or_ge j txN with hcase | hcase
      · have hbz : b.length ≤ ix - j := by omega
        rw [List.getD_eq_default _ _ hbz, mul_zero]
      · have haz : a.length ≤ j := by omega
        rw [List.getD_eq_default _ _ haz, zero_mul]

/-- When columns remain before the last one, the inner loop runs at
least one iteration. -/
theorem iy_toNat_pos (a b : List ℕ) (ix : ℕ) (ha : a ≠ []) (hb : b ≠ [])
    (hix : ix + 2 ≤ a.length + b.length) (tyI txI iyI : ℤ)
    (hty : tyI = min ((b.length : ℤ) - 1) (ix : ℤ))
    (htx : txI = (ix : ℤ) - tyI)
    (hiy : iyI = min ((a.length : ℤ) - txI) (tyI + 1)) :
    1 ≤ iyI.toNat := by
  have ha1 : 1 ≤ a.length := List.length_pos.mpr ha
  have hb1 : 1 ≤ b.length := List.length_pos.mpr hb
  omega

theorem ofDigits_replicate_zero (R : ℕ) : ∀ n, Nat.ofDigits R (List.replicate n 0) = 0 := by
  intro n
  induction n with
  | zero => rfl
  | succ m ih => rw [List.replicate_succ, Nat.ofDigits_cons, ih]; ring

/-- Value of the accumulator after one full column. -/
theorem combaAcc_v3 (R : ℕ) (a b : List ℕ) (ix : ℕ) (acc : ℕ × ℕ × ℕ) :
    v3 R (combaAcc R a b ix acc) = v3 R acc + convCol a b ix := by
  rw [combaAcc, combaInner_v3, innerSum_conv a b ix _ _ _ rfl rfl rfl]

theorem combaAcc_fst_lt (R : ℕ) (hR : 0 < R) (a b : List ℕ) (ix : ℕ)
    (acc : ℕ × ℕ × ℕ) (hacc : acc.1 < R) : (combaAcc R a b ix acc).1 < R := by
  rw [combaAcc]
  cases h : (min ((a.length : ℤ) - ((ix : ℤ) - min ((b.length : ℤ) - 1) (ix : ℤ)))
      (min ((b.length : ℤ) - 1) (ix : ℤ) + 1)).toNat with
  | zero => exact hacc
  | succ p => exact (combaInner_lt R hR a b p _ _ acc).1

theorem combaAcc_snd_lt (R : ℕ) (hR : 0 < R) (a b : List ℕ) (ix : ℕ)
    (ha : a ≠ []) (hb : b ≠ []) (hix : ix + 2 ≤ a.length + b.length)
    (acc : ℕ × ℕ × ℕ) : (combaAcc R a b ix acc).2.1 < R := by
  have hpos : 1 ≤ (min ((a.length : ℤ) - ((ix : ℤ) - min ((b.length : ℤ) - 1) (ix : ℤ)))
      (min ((b.length : ℤ) - 1) (ix : ℤ) + 1)).toNat :=
    iy_toNat_pos a b ix ha hb hix _ _ _ rfl rfl rfl
  rw [combaAcc]
  cases h : (min ((a.length : ℤ) - ((ix : ℤ) - min ((b.length : ℤ) - 1) (ix : ℤ)))
      (min ((b.length : ℤ) - 1) (ix : ℤ) + 1)).toNat with
  | zero => omega
  | succ p => exact (combaInner_lt R hR a b p _ _ acc).2

/-- Degenerate case: with an empty operand every column runs zero inner
iterations. -/
theorem combaAcc_nil (R : ℕ) (a b : List ℕ) (h : a = [] ∨ b = []) (ix : ℕ)
    (acc : ℕ × ℕ × ℕ) : combaAcc R a b ix acc = acc := by
  have hiy0 : (min ((a.length : ℤ) - ((ix : ℤ) - min ((b.length : ℤ) - 1) (ix : ℤ)))
      (min ((b.length : ℤ) - 1) (ix : ℤ) + 1)).toNat = 0 := by
    rcases h with h | h <;> (subst h; simp only [List.length_nil]; omega)
  rw [combaAcc, hiy0]
  rfl

theorem combaLoop_nil (R : ℕ) (a b : List ℕ) (h : a = [] ∨ b = []) :
    ∀ n ix, combaLoop R a b ix n (0, 0, 0) = List.replicate n 0 := by
  intro n
  induction n with
  | zero => intro ix; rfl
  | succ m ih =>
    intro ix
    rw [combaLoop_succ, combaAcc_nil R a b h, ih, List.replicate_succ]

/-- Splitting off one digit of the output against the modulus. -/
theorem mod_cons_pow (R d X n : ℕ) (hd : d < R) :
    (d + R * X) % R ^ (n + 1) = d + R * (X % R ^ n) := by
  have hpow : (0 : ℕ) < R ^ n := Nat.pos_pow_of_pos n (by omega)
  have hdm := Nat.div_add_mod X (R ^ n)
  have hmlt : X % R ^ n < R ^ n := Nat.mod_lt _ hpow
  have hexp : d + R * X = d + R * (X % R ^ n) + (R ^ (n + 1)) * (X / R ^ n) := by
    calc d + R * X = d + R * (R ^ n * (X / R ^ n) + X % R ^ n) := by rw [hdm]
      _ = d + R * (X % R ^ n) + (R ^ (n + 1)) * (X / R ^ n) := by ring
  rw [hexp, Nat.add_mul_mod_self_left]
  apply Nat.mod_eq_of_lt
  have hstep : R * (X % R ^ n) + R ≤ R * R ^ n := by
    calc R * (X % R ^ n) + R = R * (X % R ^ n + 1) := by ring
      _ ≤ R * R ^ n := Nat.mul_le_mul_left R hmlt
  have hRR : R * R ^ n = R ^ (n + 1) := by ring
  omega

/-- Main loop invariant of the Comba multiplier: starting at column ix
with n columns to go within the product length, the emitted digits are
the radix expansion of (accumulator value + remaining columns) modulo
R^n, and every emitted digit is below the radix. -/
theorem combaLoop_spec (R : ℕ) (hR : 2 ≤ R) (a b : List ℕ) (ha : a ≠ []) (hb : b ≠ []) :
    ∀ n ix acc, (1 ≤ n → acc.1 < R) → ix + n ≤ a.length + b.length →
      Nat.ofDigits R (combaLoop R a b ix n acc) =
        (v3 R acc + ∑ k ∈ Finset.range n, R ^ k * convCol a b (ix + k)) % R ^ n ∧
      (∀ d ∈ combaLoop R a b ix n acc, d < R) := by
  intro n
  induction n with
  | zero =>
    intro ix acc _ _
    constructor
    · simp [combaLoop, Nat.ofDigits_nil, Nat.mod_one]
    · intro d hd; simp [combaLoop] at hd
  | succ m ih =>
    intro ix acc hacc hlen
    rw [combaLoop_succ]
    set acc1 := combaAcc R a b ix acc with hacc1
    have hd0 : acc1.1 < R :=
      combaAcc_fst_lt R (by omega) a b ix acc (hacc (by omega))
    have hv3 : v3 R acc1 = v3 R acc + convCol a b ix := combaAcc_v3 R a b ix acc
    have hnext : 1 ≤ m → (acc1.2.1, acc1.2.2, (0 : ℕ)).1 < R := by
      intro hm
      exact combaAcc_snd_lt R (by omega) a b ix ha hb (by omega) acc
    obtain ⟨ihv, ihb⟩ := ih (ix + 1) (acc1.2.1, acc1.2.2, 0) hnext (by omega)
    constructor
    · rw [Nat.ofDigits_cons, ihv]
      have hrel : v3 R acc1 = acc1.1 + R * v3 R (acc1.2.1, acc1.2.2, 0) := by
        show acc1.1 + R * acc1.2.1 + R * R * acc1.2.2 =
          acc1.1 + R * (acc1.2.1 + R * acc1.2.2 + R * R * 0)
        ring
      have hS : v3 R acc + ∑ k ∈ Finset.range (m + 1), R ^ k * convCol a b (ix + k) =
          acc1.1 + R * (v3 R (acc1.2.1, acc1.2.2, 0) +
            ∑ k ∈ Finset.range m, R ^ k * convCol a b (ix + 1 + k)) := by
        rw [Finset.sum_range_succ']
        have hpt : ∀ k ∈ Finset.range m,
            R ^ (k + 1) * convCol a b (ix + (k + 1)) =
            R * (R ^ k * convCol a b (ix + 1 + k)) := by
          intro k _
          rw [show ix + (k + 1) = ix + 1 + k from by omega]
          ring
        rw [Finset.sum_congr rfl hpt, pow_zero, one_mul, Nat.add_zero]
        have : v3 R acc + convCol a b ix = v3 R acc1 := hv3.symm
        calc v3 R acc + (∑ k ∈ Finset.range m,
              R * (R ^ k * convCol a b (ix + 1 + k)) + convCol a b ix)
            = (v3 R acc + convCol a b ix) +
              ∑ k ∈ Finset.range m, R * (R ^ k * convCol a b (ix + 1 + k)) := by ring
          _ = v3 R acc1 + R * ∑ k ∈ Finset.range m, R ^ k * convCol a b (ix + 1 + k) := by
              rw [this, Finset.mul_sum]
          _ = acc1.1 + R * (v3 R (acc1.2.1, acc1.2.2, 0) +
              ∑ k ∈ Finset.range m, R ^ k * convCol a b (ix + 1 + k)) := by
              rw [hrel]; ring
      rw [hS, mod_cons_pow R _ _ m hd0]
    · intro d hd
      rcases List.mem_cons.mp hd with h | h
      · subst h; exact hd0
      · exact ihb d h

theorem addCarry_val (R : ℕ) (hR : 2 ≤ R) : ∀ ys cy,
    Nat.ofDigits R (addCarry R ys cy) = Nat.ofDigits R ys + cy := by
  intro ys
  induction ys with
  | nil => intro cy; simp [addCarry, natDigits_ofDigits R cy hR, Nat.ofDigits_nil]
  | cons y ys ih =>
    intro cy
    rw [addCarry, Nat.ofDigits_cons, ih]
    calc (y + cy) % R + R * (Nat.ofDigits R ys + (y + cy) / R)
        = ((y + cy) % R + R * ((y + cy) / R)) + R * Nat.ofDigits R ys := by ring
      _ = (y + cy) + R * Nat.ofDigits R ys := by rw [Nat.mod_add_div]
      _ = Nat.ofDigits R (y :: ys) + cy := by rw [Nat.ofDigits_cons]; ring

theorem addD_val (R : ℕ) (hR : 2 ≤ R) : ∀ xs ys cy,
    Nat.ofDigits R (addD R xs ys cy) = Nat.ofDigits R xs + Nat.ofDigits R ys + cy := by
  intro xs
  induction xs with
  | nil =>
    intro ys cy
    rw [addD, addCarry_val R hR, Nat.ofDigits_nil]
    ring
  | cons x xs ih =>
    intro ys cy
    cases ys with
    | nil =>
      rw [addD, addCarry_val R hR, Nat.ofDigits_nil]
      ring
    | cons y ys =>
      rw [addD, Nat.ofDigits_cons, ih]
      calc (x + y + cy) % R +
            R * (Nat.ofDigits R xs + Nat.ofDigits R ys + (x + y + cy) / R)
          = ((x + y + cy) % R + R * ((x + y + cy) / R)) +
            R * Nat.ofDigits R xs + R * Nat.ofDigits R ys := by ring
        _ = (x + y + cy) + R * Nat.ofDigits R xs + R * Nat.ofDigits R ys := by
            rw [Nat.mod_add_div]
        _ = Nat.ofDigits R (x :: xs) + Nat.ofDigits R (y :: ys) + cy := by
            rw [Nat.ofDigits_cons, Nat.ofDigits_cons]; ring

theorem scaleD_val (R d : ℕ) (hR : 2 ≤ R) : ∀ ys cy,
    Nat.ofDigits R (scaleD R d ys cy) = d * Nat.ofDigits R ys + cy := by
  intro ys
  induction ys with
  | nil =>
    intro cy
    simp [scaleD, natDigits_ofDigits R cy hR, Nat.ofDigits_nil]
  | cons y ys ih =>
    intro cy
    rw [scaleD, Nat.ofDigits_cons, ih]
    calc (d * y + cy) % R + R * (d * Nat.ofDigits R ys + (d * y + cy) / R)
        = ((d * y + cy) % R + R * ((d * y + cy) / R)) + R * (d * Nat.ofDigits R ys) := by
          ring
      _ = (d * y + cy) + R * (d * Nat.ofDigits R ys) := by rw [Nat.mod_add_div]
      _ = d * Nat.ofDigits R (y :: ys) + cy := by rw [Nat.ofDigits_cons]; ring

theorem mulSchool_val (R : ℕ) (hR : 2 ≤ R) : ∀ xs ys,
    Nat.ofDigits R (mulSchool R xs ys) = Nat.ofDigits R xs * Nat.ofDigits R ys := by
  intro xs
  induction xs with
  | nil => intro ys; simp [mulSchool, Nat.ofDigits_nil]
  | cons x xs ih =>
    intro ys
    rw [mulSchool, addD_val R hR, scaleD_val R x hR, Nat.ofDigits_cons, Nat.ofDigits_cons,
      ih]
    ring

/-! ### The full product as a sum of convolution columns -/

theorem getD_nil_zero : ∀ i, ([] : List ℕ).getD i 0 = 0 := fun _ => rfl

theorem ofDigits_eq_sum_getD (R : ℕ) : ∀ (l : List ℕ) (n : ℕ), l.length ≤ n →
    Nat.ofDigits R l = ∑ i ∈ Finset.range n, l.getD i 0 * R ^ i := by
  intro l
  induction l with
  | nil => intro n _; simp [Nat.ofDigits_nil, getD_nil_zero]
  | cons d ds ih =>
    intro n hn
    rw [List.length_cons] at hn
    obtain ⟨m, rfl⟩ : ∃ m, n = m + 1 := ⟨n - 1, by omega⟩
    rw [Finset.sum_range_succ', Nat.ofDigits_cons]
    simp only [List.getD_cons_succ, List.getD_cons_zero, pow_zero, mul_one]
    rw [ih m (by omega)]
    calc d + R * ∑ i ∈ Finset.range m, ds.getD i 0 * R ^ i
        = (∑ i ∈ Finset.range m, R * (ds.getD i 0 * R ^ i)) + d := by
          rw [← Finset.mul_sum]; ring
      _ = (∑ i ∈ Finset.range m, ds.getD i 0 * R ^ (i + 1)) + d := by
          congr 1
          apply Finset.sum_congr rfl
          intro i _
          ring

theorem convCol_cons_zero (d : ℕ) (ds b : List ℕ) : convCol (d :: ds) b 0 = d * b.getD 0 0 := by
  simp [convCol]

theorem convCol_cons_succ (d : ℕ) (ds b : List ℕ) (k : ℕ) :
    convCol (d :: ds) b (k + 1) = d * b.getD (k + 1) 0 + convCol ds b k := by
  rw [convCol, convCol, Finset.sum_range_succ']
  simp only [List.getD_cons_succ, List.getD_cons_zero, Nat.sub_zero]
  rw [add_comm]
  congr 1
  apply Finset.sum_congr rfl
  intro j _
  rw [show k + 1 - (j + 1) = k - j from by omega]

theorem convCol_nil (b : List ℕ) (k : ℕ) : convCol [] b k = 0 := by
  simp [convCol, getD_nil_zero]

theorem prod_eq_sum_conv (R : ℕ) : ∀ (a b : List ℕ),
    Nat.ofDigits R a * Nat.ofDigits R b =
      ∑ k ∈ Finset.range (a.length + b.length), R ^ k * convCol a b k := by
  intro a
  induction a with
  | nil => intro b; simp [Nat.ofDigits_nil, convCol_nil]
  | cons x xs ih =>
    intro b
    rw [Nat.ofDigits_cons, List.length_cons,
      show xs.length + 1 + b.length = (xs.length + b.length) + 1 from by omega,
      Finset.sum_range_succ']
    simp only [pow_zero, one_mul, convCol_cons_zero, convCol_cons_succ]
    have hb : Nat.ofDigits R b =
        ∑ i ∈ Finset.range (xs.length + b.length + 1), b.getD i 0 * R ^ i :=
      ofDigits_eq_sum_getD R b _ (by omega)
    rw [Finset.sum_range_succ'] at hb
    simp only [pow_zero, mul_one] at hb
    calc (x + R * Nat.ofDigits R xs) * Nat.ofDigits R b
        = x * Nat.ofDigits R b + R * (Nat.ofDigits R xs * Nat.ofDigits R b) := by ring
      _ = x * ((∑ i ∈ Finset.range (xs.length + b.length), b.getD (i + 1) 0 * R ^ (i + 1)) +
            b.getD 0 0) +
          R * ∑ k ∈ Finset.range (xs.length + b.length), R ^ k * convCol xs b k := by
          rw [← ih, ← hb]
      _ = (∑ i ∈ Finset.range (xs.length + b.length),
            (x * (b.getD (i + 1) 0 * R ^ (i + 1)) + R * (R ^ i * convCol xs b i))) +
          x * b.getD 0 0 := by
          rw [Finset.sum_add_distrib, ← Finset.mul_sum, ← Finset.mul_sum]; ring
      _ = (∑ i ∈ Finset.range (xs.length + b.length),
            R ^ (i + 1) * (x * b.getD (i + 1) 0 + convCol xs b i)) + x * b.getD 0 0 := by
          congr 1
          apply Finset.sum_congr rfl
          intro i _
          ring

theorem ofDigits_lt (R : ℕ) (hR : 1 ≤ R) : ∀ l : List ℕ,
    (∀ d ∈ l, d < R) → Nat.ofDigits R l < R ^ l.length := by
  intro l
  induction l with
  | nil => intro _; simp [Nat.ofDigits_nil]
  | cons d ds ih =>
    intro hb
    rw [Nat.ofDigits_cons, List.length_cons]
    have h1 : Nat.ofDigits R ds < R ^ ds.length :=
      ih (fun x hx => hb x (List.mem_cons_of_mem _ hx))
    have h2 : d < R := hb d (List.mem_cons_self _ _)
    have h3 : R * (Nat.ofDigits R ds + 1) ≤ R * R ^ ds.length := Nat.mul_le_mul_left R h1
    have h4 : R * R ^ ds.length = R ^ (ds.length + 1) := by ring
    have h5 : R * (Nat.ofDigits R ds + 1) = R * Nat.ofDigits R ds + R := by ring
    omega

/-! ### Top-level correctness of s_mp_mul_comba -/

theorem combaLoop_val (R : ℕ) (hR : 2 ≤ R) (A B : List ℕ) (pa : ℕ)
    (hpa : pa ≤ A.length + B.length) :
    Nat.ofDigits R (combaLoop R A B 0 pa (0, 0, 0)) =
      (Nat.ofDigits R A * Nat.ofDigits R B) % R ^ pa := by
  by_cases hnil : A = [] ∨ B = []
  · rw [combaLoop_nil R A B hnil, ofDigits_replicate_zero]
    rcases hnil with h | h <;> subst h <;> simp [Nat.ofDigits_nil]
  · push_neg at hnil
    obtain ⟨hv, -⟩ := combaLoop_spec R hR A B hnil.1 hnil.2 pa 0 (0, 0, 0)
      (fun _ => by omega) (by omega)
    rw [hv]
    have hz : v3 R (0, 0, 0) = 0 := by simp [v3]
    have hix : ∀ k ∈ Finset.range pa, R ^ k * convCol A B (0 + k) = R ^ k * convCol A B k := by
      intro k _
      rw [Nat.zero_add]
    rw [hz, zero_add, Finset.sum_congr rfl hix]
    have hsplit : (∑ k ∈ Finset.range pa, R ^ k * convCol A B k) +
        ∑ k ∈ Finset.Ico pa (A.length + B.length), R ^ k * convCol A B k =
        ∑ k ∈ Finset.range (A.length + B.length), R ^ k * convCol A B k := by
      rw [Finset.range_eq_Ico]
      exact Finset.sum_Ico_consecutive _ (Nat.zero_le pa) hpa
    have hdvd : R ^ pa ∣ ∑ k ∈ Finset.Ico pa (A.length + B.length), R ^ k * convCol A B k := by
      apply Finset.dvd_sum
      intro k hk
      exact Dvd.dvd.mul_right (pow_dvd_pow R (Finset.mem_Ico.mp hk).1) _
    obtain ⟨t, ht⟩ := hdvd
    calc (∑ k ∈ Finset.range pa, R ^ k * convCol A B k) % R ^ pa
        = ((∑ k ∈ Finset.range pa, R ^ k * convCol A B k) + R ^ pa * t) % R ^ pa := by
          rw [Nat.add_mul_mod_self_left]
      _ = (∑ k ∈ Finset.range (A.length + B.length), R ^ k * convCol A B k) % R ^ pa := by
          rw [← ht, hsplit]
      _ = (Nat.ofDigits R A * Nat.ofDigits R B) % R ^ pa := by rw [← prod_eq_sum_conv]

theorem combaLoop_bound (R : ℕ) (hR : 2 ≤ R) (A B : List ℕ) (pa : ℕ)
    (hpa : pa ≤ A.length + B.length) :
    ∀ d ∈ combaLoop R A B 0 pa (0, 0, 0), d < R := by
  by_cases hnil : A = [] ∨ B = []
  · rw [combaLoop_nil R A B hnil]
    intro d hd
    rw [List.eq_of_mem_replicate hd]
    omega
  · push_neg at hnil
    exact (combaLoop_spec R hR A B hnil.1 hnil.2 pa 0 (0, 0, 0)
      (fun _ => by omega) (by omega)).2

/-- Functional correctness of the Comba multiplier: the destination
holds the low min(digs, used(a)+used(b)) digits of |a|·|b|, in
canonical form, regardless of the original destination contents and of
aliasing. -/
theorem comba_spec (W : ℕ) (hW : 1 ≤ W) (a b c : mp_int) (digs : ℕ) (al : Bool) :
    mag W (s_mp_mul_comba W a b c digs al) =
      (mag W a * mag W b) % (2 ^ W) ^ (min digs (a.used + b.used)) ∧
    mp_canonical W (s_mp_mul_comba W a b c digs al) := by
  have hR : 2 ≤ 2 ^ W := two_le_radix hW
  have hpa : min digs (a.used + b.used) ≤ a.dp.length + b.dp.length :=
    Nat.min_le_right _ _
  have hres : s_mp_mul_comba W a b c digs al =
      ⟨if clampD (combaLoop (2 ^ W) a.dp b.dp 0 (min digs (a.used + b.used)) (0, 0, 0)) = []
          then false else (if al then (⟨false, []⟩ : mp_int) else c).sign,
        clampD (combaLoop (2 ^ W) a.dp b.dp 0 (min digs (a.used + b.used)) (0, 0, 0))⟩ := rfl
  constructor
  · rw [hres]
    show Nat.ofDigits (2 ^ W)
        (clampD (combaLoop (2 ^ W) a.dp b.dp 0 (min digs (a.used + b.used)) (0, 0, 0))) = _
    rw [clampD_ofDigits, combaLoop_val (2 ^ W) hR a.dp b.dp _ hpa]
    rfl
  · rw [hres]
    refine ⟨?_, ?_, ?_⟩
    · intro d hd
      exact combaLoop_bound (2 ^ W) hR a.dp b.dp _ hpa d (clampD_subset _ d hd)
    · exact clampD_getLastD _
    · intro h
      show (if clampD (combaLoop (2 ^ W) a.dp b.dp 0 (min digs (a.used + b.used)) (0, 0, 0)) = []
          then false else (if al then (⟨false, []⟩ : mp_int) else c).sign) = false
      rw [if_pos h]

theorem magApply_natAbs (f : ℕ → ℕ) (v : ℤ) : (magApply f v).natAbs = f v.natAbs := by
  unfold magApply
  split <;> simp

theorem magApply_nonneg (f : ℕ → ℕ) (v : ℤ) (h : 0 ≤ v) :
    magApply f v = (f v.natAbs : ℤ) := by
  unfold magApply
  rw [if_neg (by omega)]

theorem magApply_neg (f : ℕ → ℕ) (v : ℤ) (h : v < 0) :
    magApply f v = -(f v.natAbs : ℤ) := by
  unfold magApply
  rw [if_pos h]

/-- mp_div_2 divides an even value exactly. -/
theorem magDiv2_two_mul (t : ℤ) : mp_div_2_v (2 * t) = t := by
  show (if 2 * t < 0 then -(((2 * t).natAbs / 2 : ℕ) : ℤ) else (((2 * t).natAbs / 2 : ℕ) : ℤ)) = t
  split <;> omega

/-- mp_div_3 divides an exact multiple of three exactly. -/
theorem magDiv3_three_mul (t : ℤ) : mp_div_3_v (3 * t) = t := by
  show (if 3 * t < 0 then -(((3 * t).natAbs / 3 : ℕ) : ℤ) else (((3 * t).natAbs / 3 : ℕ) : ℤ)) = t
  split <;> omega

/-- Closed form of the interpolation state after line 168, just before
the divisions by three: w1 = 6·a0a1, w2 = a1² + 2·a0a2, w3 = 6·a1a2. -/
theorem toomMid_spec (a0 a1 a2 : ℤ) :
    toomMid (toomSub1 (toomEval a0 a1 a2)) =
      ⟨a0 ^ 2, 6 * (a0 * a1), a1 ^ 2 + 2 * (a0 * a2), 6 * (a1 * a2), a2 ^ 2⟩ := by
  have h1 : mp_div_2_v ((2 * (2 * a0 + a1) + a2) ^ 2 - a2 ^ 2) =
      8 * a0 ^ 2 + 2 * a1 ^ 2 + 8 * (a0 * a1) + 4 * (a0 * a2) + 2 * (a1 * a2) := by
    rw [show (2 * (2 * a0 + a1) + a2) ^ 2 - a2 ^ 2 =
      2 * (8 * a0 ^ 2 + 2 * a1 ^ 2 + 8 * (a0 * a1) + 4 * (a0 * a2) + 2 * (a1 * a2)) from
      by ring, magDiv2_two_mul]
  have h3 : mp_div_2_v ((2 * (2 * a2 + a1) + a0) ^ 2 - a0 ^ 2) =
      8 * a2 ^ 2 + 2 * a1 ^ 2 + 8 * (a1 * a2) + 4 * (a0 * a2) + 2 * (a0 * a1) := by
    rw [show (2 * (2 * a2 + a1) + a0) ^ 2 - a0 ^ 2 =
      2 * (8 * a2 ^ 2 + 2 * a1 ^ 2 + 8 * (a1 * a2) + 4 * (a0 * a2) + 2 * (a0 * a1)) from
      by ring, magDiv2_two_mul]
  simp only [toomEval, toomSub1, toomMid, W5.mk.injEq]
  rw [h1, h3]
  refine ⟨by ring, by ring, by ring, by ring, by ring⟩

/-- Closed form after the divisions by three: the coefficients of the
square, r1 = 2·a0a1, r2 = a1² + 2·a0a2, r3 = 2·a1a2. -/
theorem toomPipeline_spec (a0 a1 a2 : ℤ) :
    toomDiv3 (toomMid (toomSub1 (toomEval a0 a1 a2))) =
      ⟨a0 ^ 2, 2 * (a0 * a1), a1 ^ 2 + 2 * (a0 * a2), 2 * (a1 * a2), a2 ^ 2⟩ := by
  rw [toomMid_spec]
  simp only [toomDiv3, W5.mk.injEq]
  rw [show (6 : ℤ) * (a0 * a1) = 3 * (2 * (a0 * a1)) from by ring,
    show (6 : ℤ) * (a1 * a2) = 3 * (2 * (a1 * a2)) from by ring,
    magDiv3_three_mul, magDiv3_three_mul]
  simp

theorem split_nat_recomb (X : ℕ) : ∀ m : ℕ,
    (m / (X * X)) * (X * X) + ((m / X) % X) * X + m % X = m := by
  intro m
  have h4 : m / X / X = m / (X * X) := Nat.div_div_eq_div_mul m X X
  calc (m / (X * X)) * (X * X) + ((m / X) % X) * X + m % X
      = (X * (m / X / X) + (m / X) % X) * X + m % X := by rw [h4]; ring
    _ = (m / X) * X + m % X := by rw [show X * (m / X / X) + (m / X) % X = m / X from
        Nat.div_add_mod (m / X) X]
    _ = m := by rw [mul_comm, Nat.div_add_mod]

/-- magApply composes when the outer magnitude operation fixes zero. -/
theorem magApply_comp (f g : ℕ → ℕ) (hf : f 0 = 0) (v : ℤ) :
    magApply f (magApply g v) = magApply (fun n => f (g n)) v := by
  rcases lt_or_ge v 0 with h | h
  · rw [magApply_neg g v h, magApply_neg (fun n => f (g n)) v h]
    by_cases hg : g v.natAbs = 0
    · rw [magApply_nonneg f _ (by omega),
        show (-(((g v.natAbs) : ℕ) : ℤ)).natAbs = g v.natAbs from by omega, hg, hf]
      simp
    · rw [magApply_neg f _ (by omega),
        show (-(((g v.natAbs) : ℕ) : ℤ)).natAbs = g v.natAbs from by omega]
  · rw [magApply_nonneg g v h, magApply_nonneg (fun n => f (g n)) v h,
      magApply_nonneg f _ (by omega),
      show ((((g v.natAbs) : ℕ) : ℤ)).natAbs = g v.natAbs from by omega]

/-- The limb decomposition of lines 18-37 recombines exactly
(spec section 3): a = a2·R^2B + a1·R^B + a0. -/
theorem toomSplit_recomb (W : ℕ) (a : mp_int) :
    val W a = (toomSplit W a).2.2 * ((2 : ℤ) ^ (W * (a.used / 3))) ^ 2 +
      (toomSplit W a).2.1 * (2 : ℤ) ^ (W * (a.used / 3)) + (toomSplit W a).1 := by
  set B := a.used / 3 with hB
  set v := val W a with hv
  show v = mp_rshd_v W v (B * 2) * ((2 : ℤ) ^ (W * B)) ^ 2 +
    mp_mod_2d_v (mp_rshd_v W v B) (W * B) * (2 : ℤ) ^ (W * B) + mp_mod_2d_v v (W * B)
  set X : ℕ := 2 ^ (W * B) with hX
  have hXX : (2 : ℕ) ^ (W * (B * 2)) = X * X := by
    rw [hX, show W * (B * 2) = W * B * 2 from by ring, pow_mul]
    ring
  have hXc : ((2 : ℤ) ^ (W * B)) = (X : ℤ) := by rw [hX]; push_cast; rfl
  have e2 : mp_rshd_v W v (B * 2) = magApply (fun n => n / (X * X)) v := by
    unfold mp_rshd_v
    rw [hXX]
  have e1 : mp_mod_2d_v (mp_rshd_v W v B) (W * B) =
      magApply (fun n => (n / X) % X) v := by
    unfold mp_mod_2d_v mp_rshd_v
    rw [magApply_comp (fun n => n % 2 ^ (W * B)) (fun n => n / 2 ^ (W * B))
      (Nat.zero_mod _) v]
  have e0 : mp_mod_2d_v v (W * B) = magApply (fun n => n % X) v := by
    unfold mp_mod_2d_v
    rw [hX]
  rw [e2, e1, e0, hXc]
  have key := split_nat_recomb X v.natAbs
  have keyz : ((v.natAbs / (X * X) : ℕ) : ℤ) * ((X : ℤ) * (X : ℤ)) +
      ((v.natAbs / X % X : ℕ) : ℤ) * (X : ℤ) + ((v.natAbs % X : ℕ) : ℤ) =
      (v.natAbs : ℤ) := by exact_mod_cast key
  rcases lt_or_ge v 0 with h | h
  · rw [magApply_neg _ _ h, magApply_neg _ _ h, magApply_neg _ _ h]
    have hnv : (v.natAbs : ℤ) = -v := by omega
    rw [show ((X : ℤ)) ^ 2 = (X : ℤ) * X from by ring]
    linarith [keyz]
  · rw [magApply_nonneg _ _ h, magApply_nonneg _ _ h, magApply_nonneg _ _ h]
    have hnv : (v.natAbs : ℤ) = v := by omega
    rw [show ((X : ℤ)) ^ 2 = (X : ℤ) * X from by ring]
    linarith [keyz]

/-- The recombination value of lines 180-205 equals the square of the
input value, for every input. -/
theorem toomFinal_eq_sq (W : ℕ) (a : mp_int) :
    ((toomW W a).w4 + ((toomW W a).w2 + (toomW W a).w3)) +
      ((toomW W a).w0 + (toomW W a).w1) = (val W a) ^ 2 := by
  have hsp := toomSplit_recomb W a
  set B := a.used / 3 with hB
  set s := toomSplit W a with hs
  have hW5 : toomW W a =
      toomShift W B (toomDiv3 (toomMid (toomSub1 (toomEval s.1 s.2.1 s.2.2)))) := rfl
  rw [hW5, toomPipeline_spec]
  set X : ℤ := (2 : ℤ) ^ (W * B) with hX
  simp only [toomShift]
  have p1 : (2 : ℤ) ^ (W * (1 * B)) = X := by
    rw [show W * (1 * B) = W * B from by ring]
  have p2 : (2 : ℤ) ^ (W * (2 * B)) = X ^ 2 := by
    rw [show W * (2 * B) = W * B * 2 from by ring, pow_mul]
  have p3 : (2 : ℤ) ^ (W * (3 * B)) = X ^ 3 := by
    rw [show W * (3 * B) = W * B * 3 from by ring, pow_mul]
  have p4 : (2 : ℤ) ^ (W * (4 * B)) = X ^ 4 := by
    rw [show W * (4 * B) = W * B * 4 from by ring, pow_mul]
  rw [p1, p2, p3, p4, hsp]
  ring

/-- On the no-failure path the run returns MP_OKAY and the recombined
destination. -/
theorem toom_run_none (W : ℕ) (a b0 : mp_int) :
    s_mp_toom_sqr_run W none a b0 =
      (MP_OKAY, ofInt W (((toomW W a).w4 + ((toomW W a).w2 + (toomW W a).w3)) +
        val W (ofInt W ((toomW W a).w0 + (toomW W a).w1)))) := rfl

/-- s_mp_toom_sqr computes the square: the success path canonicalizes
(val a)². -/
theorem toom_sqr_ok (W : ℕ) (hW : 1 ≤ W) (a b0 : mp_int) :
    s_mp_toom_sqr_run W none a b0 = (MP_OKAY, ofInt W ((val W a) ^ 2)) := by
  rw [toom_run_none, val_ofInt W hW, toomFinal_eq_sq W a]

/-- The dividends of the two divisions by 2 (lines 117-122) and of the
two divisions by 3 (lines 172-177) are exactly divisible, for all limb
values. -/
theorem toom_dividends (a0 a1 a2 : ℤ) :
    (2 ∣ (toomSub1 (toomEval a0 a1 a2)).w1) ∧
    (2 ∣ (toomSub1 (toomEval a0 a1 a2)).w3) ∧
    (3 ∣ (toomMid (toomSub1 (toomEval a0 a1 a2))).w1) ∧
    (3 ∣ (toomMid (toomSub1 (toomEval a0 a1 a2))).w3) := by
  refine ⟨?_, ?_, ?_, ?_⟩
  · exact ⟨8 * a0 ^ 2 + 2 * a1 ^ 2 + 8 * (a0 * a1) + 4 * (a0 * a2) + 2 * (a1 * a2),
      by simp only [toomEval, toomSub1]; ring⟩
  · exact ⟨8 * a2 ^ 2 + 2 * a1 ^ 2 + 8 * (a1 * a2) + 4 * (a0 * a2) + 2 * (a0 * a1),
      by simp only [toomEval, toomSub1]; ring⟩
  · rw [toomMid_spec]
    exact ⟨2 * (a0 * a1), by show (6 : ℤ) * (a0 * a1) = 3 * (2 * (a0 * a1)); ring⟩
  · rw [toomMid_spec]
    exact ⟨2 * (a1 * a2), by show (6 : ℤ) * (a1 * a2) = 3 * (2 * (a1 * a2)); ring⟩

theorem mp_jacobi_spec (W : ℕ) (hW : 1 ≤ W) (kron : mp_int → mp_int → mp_err × ℤ)
    (a n : mp_int) (c : ℤ) (hca : mp_canonical W a) (hcn : mp_canonical W n) :
    ((val W a < 0 ∨ val W n ≤ 0) → mp_jacobi W kron a n c = (MP_VAL, c)) ∧
    (0 ≤ val W a → 0 < val W n → mp_jacobi W kron a n c = kron a n) := by
  constructor
  · intro h
    unfold mp_jacobi
    by_cases hs : mp_isneg a = true
    · rw [if_pos hs]
    · rw [if_neg hs]
      have hva : 0 ≤ val W a := by
        rcases lt_or_ge (val W a) 0 with hlt | hge
        · exact absurd ((canonical_sign_iff W hW a hca).mpr hlt) hs
        · exact hge
      have hvn : val W n ≤ 0 := by
        rcases h with h | h
        · omega
        · exact h
      have hcmp : mp_cmp_d W n 0 ≠ Ordering.gt := by
        unfold mp_cmp_d
        rw [ne_eq, compare_gt_iff_gt]
        push_cast
        omega
      rw [if_pos hcmp]
  · intro ha hn
    unfold mp_jacobi
    have hs : ¬(mp_isneg a = true) := by
      intro hs
      have := (canonical_sign_iff W hW a hca).mp hs
      omega
    rw [if_neg hs]
    have hcmp : ¬(mp_cmp_d W n 0 ≠ Ordering.gt) := by
      rw [not_not]
      unfold mp_cmp_d
      rw [compare_gt_iff_gt]
      exact_mod_cast hn
    rw [if_neg hcmp]

/-! ### Claims -/

/-- Claim C1: for canonical operands and every requested digit count,
s_mp_mul_comba sets the destination to a canonical integer whose
magnitude is the low min(digs, used(a)+used(b)) digits of |a|·|b|, that
is (|a|·|b|) mod R^min(digs, used(a)+used(b)); in particular, for every
digs at most used(a)+used(b), the output is the low digs digits of the
full product. -/
theorem claim_C1_comba_truncated_product (W : ℕ) (hW : 1 ≤ W) (a b c : mp_int)
    (digs : ℕ) (al : Bool) (ha : mp_canonical W a) (hb : mp_canonical W b) :
    mag W (s_mp_mul_comba W a b c digs al) =
      (mag W a * mag W b) % (2 ^ W) ^ (min digs (a.used + b.used)) ∧
    mp_canonical W (s_mp_mul_comba W a b c digs al) ∧
    (digs ≤ a.used + b.used →
      mag W (s_mp_mul_comba W a b c digs al) = (mag W a * mag W b) % (2 ^ W) ^ digs) := by
  obtain ⟨h1, h2⟩ := comba_spec W hW a b c digs al
  exact ⟨h1, h2, fun hd => by rw [h1, min_eq_left hd]⟩

theorem claim_C1_witness :
    1 ≤ 4 ∧ mp_canonical 4 ⟨false, [3, 2]⟩ ∧ mp_canonical 4 ⟨false, [5]⟩ ∧
    mag 4 (s_mp_mul_comba 4 ⟨false, [3, 2]⟩ ⟨false, [5]⟩ ⟨true, [7]⟩ 1 false) =
      (mag 4 ⟨false, [3, 2]⟩ * mag 4 ⟨false, [5]⟩) % (2 ^ 4) ^ 1 :=
  ⟨by norm_num, by decide, by decide,
    (claim_C1_comba_truncated_product 4 (by norm_num) ⟨false, [3, 2]⟩ ⟨false, [5]⟩
      ⟨true, [7]⟩ 1 false (by decide) (by decide)).2.2 (by decide)⟩

/-- Claim C2: for every canonical non-negative input, s_mp_toom_sqr
succeeds and sets the destination to a canonical integer equal to a²,
which is also the value of the reference schoolbook squaring of a. -/
theorem claim_C2_toom_sqr_correct (W : ℕ) (hW : 1 ≤ W) (a b0 : mp_int)
    (ha : mp_canonical W a) (hs : a.sign = false) :
    (s_mp_toom_sqr_run W none a b0).1 = MP_OKAY ∧
    val W (s_mp_toom_sqr_run W none a b0).2 = (val W a) ^ 2 ∧
    mp_canonical W (s_mp_toom_sqr_run W none a b0).2 ∧
    mag W (s_mp_toom_sqr_run W none a b0).2 =
      Nat.ofDigits (2 ^ W) (mulSchool (2 ^ W) a.dp a.dp) := by
  have hR := two_le_radix hW
  rw [toom_sqr_ok W hW]
  refine ⟨rfl, val_ofInt W hW _, canonical_ofInt W hW _, ?_⟩
  show mag W (ofInt W ((val W a) ^ 2)) = _
  rw [mag_ofInt W hW, mulSchool_val _ hR]
  have hva : val W a = (mag W a : ℤ) := by simp [val, hs]
  rw [hva, show ((mag W a : ℤ)) ^ 2 = ((mag W a * mag W a : ℕ) : ℤ) from by push_cast; ring,
    Int.natAbs_ofNat]
  rfl

theorem claim_C2_witness :
    mp_canonical 4 ⟨false, [1, 2, 3]⟩ ∧
    (s_mp_toom_sqr_run 4 none ⟨false, [1, 2, 3]⟩ ⟨false, [7]⟩).1 = MP_OKAY ∧
    val 4 (s_mp_toom_sqr_run 4 none ⟨false, [1, 2, 3]⟩ ⟨false, [7]⟩).2 =
      (val 4 ⟨false, [1, 2, 3]⟩) ^ 2 :=
  ⟨by decide,
    (claim_C2_toom_sqr_correct 4 (by norm_num) ⟨false, [1, 2, 3]⟩ ⟨false, [7]⟩
      (by decide) rfl).1,
    (claim_C2_toom_sqr_correct 4 (by norm_num) ⟨false, [1, 2, 3]⟩ ⟨false, [7]⟩
      (by decide) rfl).2.1⟩

/-- Claim C3: in the interpolation phase of s_mp_toom_sqr, for every
canonical non-negative input the operands of the two divisions by two
(lines 117-122) are even and the operands of the two divisions by three
(lines 172-177) are exact multiples of three. -/
theorem claim_C3_toom_divisions_exact (W : ℕ) (hW : 1 ≤ W) (a : mp_int)
    (ha : mp_canonical W a) (hs : a.sign = false) :
    2 ∣ (toomSub1 (toomEval (toomSplit W a).1 (toomSplit W a).2.1 (toomSplit W a).2.2)).w1 ∧
    2 ∣ (toomSub1 (toomEval (toomSplit W a).1 (toomSplit W a).2.1 (toomSplit W a).2.2)).w3 ∧
    3 ∣ (toomMid (toomSub1 (toomEval (toomSplit W a).1 (toomSplit W a).2.1
      (toomSplit W a).2.2))).w1 ∧
    3 ∣ (toomMid (toomSub1 (toomEval (toomSplit W a).1 (toomSplit W a).2.1
      (toomSplit W a).2.2))).w3 :=
  toom_dividends _ _ _

theorem claim_C3_witness :
    mp_canonical 4 ⟨false, [1, 2, 3]⟩ ∧
    2 ∣ (toomSub1 (toomEval (toomSplit 4 ⟨false, [1, 2, 3]⟩).1
      (toomSplit 4 ⟨false, [1, 2, 3]⟩).2.1 (toomSplit 4 ⟨false, [1, 2, 3]⟩).2.2)).w1 :=
  ⟨by decide,
    (claim_C3_toom_divisions_exact 4 (by norm_num) ⟨false, [1, 2, 3]⟩ (by decide) rfl).1⟩

/-- Claim C4 (amended): if any step at or before the recombination add
of line 194 fails (ops 0 through 43, which include the allocation of
the nine temporaries and the whole interpolation), the destination is
unchanged; the counterexample shows a later failure can leave an
intermediate value in the destination. -/
theorem claim_C4_amended_early_failure_preserves_dest (W : ℕ) (a b0 : mp_int) (k : ℕ)
    (hk : k ≤ 43) : s_mp_toom_sqr_run W (some k) a b0 = (MP_MEM, b0) := by
  interval_cases k <;> rfl

/-- Claim C4 counterexample: with the failure injected at the addition
of line 197 (op 44), the routine reports an error yet the destination no
longer holds its original value — it was overwritten by the add of
line 194. -/
theorem claim_C4_counterexample :
    (s_mp_toom_sqr_run 4 (some 44) ⟨false, [1]⟩ ⟨false, [5]⟩).1 ≠ MP_OKAY ∧
    (s_mp_toom_sqr_run 4 (some 44) ⟨false, [1]⟩ ⟨false, [5]⟩).2 ≠ ⟨false, [5]⟩ := by
  decide

theorem claim_C4_witness :
    s_mp_toom_sqr_run 4 (some 5) ⟨false, [1, 2]⟩ ⟨true, [3]⟩ = (MP_MEM, ⟨true, [3]⟩) :=
  claim_C4_amended_early_failure_preserves_dest 4 ⟨false, [1, 2]⟩ ⟨true, [3]⟩ 5 (by norm_num)

/-- Claim C5: mp_jacobi fails with MP_VAL, without delegating and
leaving the result location untouched, exactly on a negative numerator
or a non-positive modulus; on every valid input it delegates
unconditionally to the Kronecker evaluator with unmodified operands and
returns its result. -/
theorem claim_C5_jacobi_domain_check (W : ℕ) (hW : 1 ≤ W)
    (kron : mp_int → mp_int → mp_err × ℤ) (a n : mp_int) (c : ℤ)
    (hca : mp_canonical W a) (hcn : mp_canonical W n) :
    ((val W a < 0 ∨ val W n ≤ 0) → mp_jacobi W kron a n c = (MP_VAL, c)) ∧
    (0 ≤ val W a → 0 < val W n → mp_jacobi W kron a n c = kron a n) :=
  mp_jacobi_spec W hW kron a n c hca hcn

theorem claim_C5_witness :
    mp_jacobi 4 (fun _ _ => (MP_OKAY, 1)) ⟨true, [1]⟩ ⟨false, [5]⟩ 7 = (MP_VAL, 7) ∧
    mp_jacobi 4 (fun _ _ => (MP_OKAY, 1)) ⟨false, [2]⟩ ⟨false, [7]⟩ 7 = (MP_OKAY, 1) :=
  ⟨(claim_C5_jacobi_domain_check 4 (by norm_num) (fun _ _ => (MP_OKAY, 1)) ⟨true, [1]⟩
      ⟨false, [5]⟩ 7 (by decide) (by decide)).1 (Or.inl (by decide)),
    (claim_C5_jacobi_domain_check 4 (by norm_num) (fun _ _ => (MP_OKAY, 1)) ⟨false, [2]⟩
      ⟨false, [7]⟩ 7 (by decide) (by decide)).2 (by decide) (by decide)⟩

/-- Claim C6: calling s_mp_mul_comba with the destination aliasing
either operand produces the same digits and the same magnitude as a
call with a separate destination; the routine computes into a private
temporary on the aliased path and moves it into the destination on
success. -/
theorem claim_C6_comba_alias_independent (W : ℕ) (a b c : mp_int) (digs : ℕ) :
    (s_mp_mul_comba W a b a digs true).dp = (s_mp_mul_comba W a b c digs false).dp ∧
    (s_mp_mul_comba W a b b digs true).dp = (s_mp_mul_comba W a b c digs false).dp ∧
    mag W (s_mp_mul_comba W a b a digs true) = mag W (s_mp_mul_comba W a b c digs false) :=
  ⟨rfl, rfl, rfl⟩

/-- Claim C7: the limbs computed by the split of s_mp_toom_sqr satisfy
a = a2·R^2B + a1·R^B + a0 with |a0| and |a1| strictly below R^B. -/
theorem claim_C7_toom_split_identity (W : ℕ) (hW : 1 ≤ W) (a : mp_int)
    (ha : mp_canonical W a) :
    val W a = (toomSplit W a).2.2 * ((2 : ℤ) ^ (W * (a.used / 3))) ^ 2 +
      (toomSplit W a).2.1 * (2 : ℤ) ^ (W * (a.used / 3)) + (toomSplit W a).1 ∧
    (toomSplit W a).1.natAbs < 2 ^ (W * (a.used / 3)) ∧
    (toomSplit W a).2.1.natAbs < 2 ^ (W * (a.used / 3)) := by
  refine ⟨toomSplit_recomb W a, ?_, ?_⟩
  · show (mp_mod_2d_v (val W a) (W * (a.used / 3))).natAbs < _
    rw [mp_mod_2d_v, magApply_natAbs]
    exact Nat.mod_lt _ (by positivity)
  · show (mp_mod_2d_v (mp_rshd_v W (val W a) (a.used / 3)) (W * (a.used / 3))).natAbs < _
    rw [mp_mod_2d_v, magApply_natAbs]
    exact Nat.mod_lt _ (by positivity)

theorem claim_C7_witness :
    mp_canonical 4 ⟨false, [1, 2, 3]⟩ ∧
    val 4 ⟨false, [1, 2, 3]⟩ =
      (toomSplit 4 ⟨false, [1, 2, 3]⟩).2.2 *
          ((2 : ℤ) ^ (4 * ((⟨false, [1, 2, 3]⟩ : mp_int).used / 3))) ^ 2 +
        (toomSplit 4 ⟨false, [1, 2, 3]⟩).2.1 *
          (2 : ℤ) ^ (4 * ((⟨false, [1, 2, 3]⟩ : mp_int).used / 3)) +
        (toomSplit 4 ⟨false, [1, 2, 3]⟩).1 :=
  ⟨by decide, (claim_C7_toom_split_identity 4 (by norm_num) ⟨false, [1, 2, 3]⟩ (by decide)).1⟩

/-- Claim C8: at full product length the Comba multiplier is
commutative and agrees with the reference schoolbook multiplication. -/
theorem claim_C8_comba_commutative_schoolbook (W : ℕ) (hW : 1 ≤ W) (a b c c2 : mp_int)
    (al al2 : Bool) (ha : mp_canonical W a) (hb : mp_canonical W b) :
    mag W (s_mp_mul_comba W a b c (a.used + b.used) al) =
      mag W (s_mp_mul_comba W b a c2 (b.used + a.used) al2) ∧
    mag W (s_mp_mul_comba W a b c (a.used + b.used) al) =
      Nat.ofDigits (2 ^ W) (mulSchool (2 ^ W) a.dp b.dp) := by
  have hR := two_le_radix hW
  have h1 := (comba_spec W hW a b c (a.used + b.used) al).1
  have h2 := (comba_spec W hW b a c2 (b.used + a.used) al2).1
  have hlt : mag W a * mag W b < (2 ^ W) ^ (a.used + b.used) := by
    have la := ofDigits_lt (2 ^ W) (by omega) a.dp ha.1
    have lb := ofDigits_lt (2 ^ W) (by omega) b.dp hb.1
    calc mag W a * mag W b < (2 ^ W) ^ a.dp.length * (2 ^ W) ^ b.dp.length :=
        mul_lt_mul'' la lb (Nat.zero_le _) (Nat.zero_le _)
      _ = (2 ^ W) ^ (a.used + b.used) := by rw [← pow_add]; rfl
  have e1 : mag W (s_mp_mul_comba W a b c (a.used + b.used) al) = mag W a * mag W b := by
    rw [h1, min_self, Nat.mod_eq_of_lt hlt]
  have e2 : mag W (s_mp_mul_comba W b a c2 (b.used + a.used) al2) = mag W b * mag W a := by
    have hlt2 : mag W b * mag W a < (2 ^ W) ^ (b.used + a.used) := by
      rw [mul_comm (mag W b) (mag W a), Nat.add_comm b.used a.used]
      exact hlt
    rw [h2, min_self, Nat.mod_eq_of_lt hlt2]
  refine ⟨?_, ?_⟩
  · rw [e1, e2, mul_comm]
  · rw [e1, mulSchool_val _ hR]
    rfl

theorem claim_C8_witness :
    mp_canonical 4 ⟨false, [3, 2]⟩ ∧ mp_canonical 4 ⟨false, [5]⟩ ∧
    mag 4 (s_mp_mul_comba 4 ⟨false, [3, 2]⟩ ⟨false, [5]⟩ ⟨false, []⟩ 3 false) =
      mag 4 (s_mp_mul_comba 4 ⟨false, [5]⟩ ⟨false, [3, 2]⟩ ⟨false, []⟩ 3 false) ∧
    mag 4 (s_mp_mul_comba 4 ⟨false, [3, 2]⟩ ⟨false, [5]⟩ ⟨false, []⟩ 3 false) =
      Nat.ofDigits (2 ^ 4) (mulSchool (2 ^ 4) [3, 2] [5]) :=
  ⟨by decide, by decide,
    (claim_C8_comba_commutative_schoolbook 4 (by norm_num) ⟨false, [3, 2]⟩ ⟨false, [5]⟩
      ⟨false, []⟩ ⟨false, []⟩ false false (by decide) (by decide)).1,
    (claim_C8_comba_commutative_schoolbook 4 (by norm_num) ⟨false, [3, 2]⟩ ⟨false, [5]⟩
      ⟨false, []⟩ ⟨false, []⟩ false false (by decide) (by decide)).2⟩

/-- Claim C9: a non-aliased s_mp_mul_comba call leaves both operands
completely unchanged, whether the destination preparation succeeds or
fails. -/
theorem claim_C9_comba_operands_unchanged (W : ℕ) (a b c : mp_int) (digs : ℕ)
    (allocOk : Bool) :
    (s_mp_mul_comba_call W a b c digs false allocOk).2.1 = a ∧
    (s_mp_mul_comba_call W a b c digs false allocOk).2.2.1 = b := by
  cases allocOk <;> exact ⟨rfl, rfl⟩

/-- Claim C10: s_mp_toom_sqr needs no minimum size: for canonical
non-negative inputs with fewer than three digits (so B = 0) the result
still equals a², and squaring zero yields the canonical zero (used = 0,
positive sign). -/
theorem claim_C10_toom_sqr_small_inputs (W : ℕ) (hW : 1 ≤ W) (a b0 : mp_int)
    (ha : mp_canonical W a) (hs : a.sign = false) (hsmall : a.used < 3) :
    (s_mp_toom_sqr_run W none a b0).1 = MP_OKAY ∧
    val W (s_mp_toom_sqr_run W none a b0).2 = (val W a) ^ 2 ∧
    (val W a = 0 → (s_mp_toom_sqr_run W none a b0).2 = ⟨false, []⟩) := by
  rw [toom_sqr_ok W hW]
  refine ⟨rfl, val_ofInt W hW _, ?_⟩
  intro h0
  show ofInt W ((val W a) ^ 2) = (⟨false, []⟩ : mp_int)
  rw [h0]
  rfl

theorem claim_C10_witness :
    mp_canonical 4 ⟨false, ([] : List ℕ)⟩ ∧ (⟨false, ([] : List ℕ)⟩ : mp_int).used < 3 ∧
    (s_mp_toom_sqr_run 4 none ⟨false, []⟩ ⟨false, [7]⟩).2 = ⟨false, []⟩ :=
  ⟨by decide, by decide,
    (claim_C10_toom_sqr_small_inputs 4 (by norm_num) ⟨false, []⟩ ⟨false, [7]⟩
      (by decide) rfl (by decide)).2.2 (by decide)⟩

end LTM

